import Mathlib

/-!
Verification development for the document-chat frontend (`src/App.jsx`).

The file shallow-embeds the parts of the program the specification talks
about:

* the streaming agent path of `startAgent`: the stateful UTF-8 byte
  decoder (`TextDecoder('utf-8')` with `stream: true`), the blank-line
  frame splitter (`buffer.split('\n\n')` with `buffer = parts.pop()`),
  the per-frame `data:` handling with the `[DONE]` sentinel and
  `JSON.parse`, and the surrounding read loop with its error handling;
* the sequential upload loop of `handleFiles` with per-item status
  updates keyed on the file object;
* the `runQuery` request/response path.

Text is modelled as `List Char` (JS strings), bytes as `Nat` (one byte
each), JS values appended to the event list as the `Json` inductive.
All definitions are executable; recursion is structural (fuel-based
where the source iterates on shrinking strings) so that concrete runs
reduce inside the kernel.
-/

/-- A JSON value as produced by `JSON.parse` (and the literal objects the
component itself appends).  Numbers keep their source lexeme: the program
never computes with a parsed number, so equality of lexemes is all that is
needed of them. -/
inductive Json where
  | null
  | bool (b : Bool)
  | num (lexeme : String)
  | str (s : String)
  | arr (elems : List Json)
  | obj (fields : List (String × Json))

/-! ### JSON.parse

A direct implementation of strict JSON parsing as performed by
`JSON.parse`: optional whitespace (space, tab, LF, CR only) around tokens,
objects, arrays, strings with escapes, numbers, `true`/`false`/`null`.
Recursion is on an explicit fuel argument so the parser is structurally
recursive and computable by the kernel. -/

/-- JSON whitespace: exactly space, tab, line feed, carriage return. -/
def jsonWsChar (c : Char) : Bool :=
  c = ' ' || c = '\t' || c = '\n' || c = '\r'

/-- Value of a hexadecimal digit. -/
def hexVal (c : Char) : Option Nat :=
  if '0' ≤ c ∧ c ≤ '9' then some (c.toNat - '0'.toNat)
  else if 'a' ≤ c ∧ c ≤ 'f' then some (c.toNat - 'a'.toNat + 10)
  else if 'A' ≤ c ∧ c ≤ 'F' then some (c.toNat - 'A'.toNat + 10)
  else none

/-- Four hex digits, as in a `\uXXXX` escape. -/
def parseHex4 : List Char → Option (Nat × List Char)
  | h1 :: h2 :: h3 :: h4 :: rest =>
    match hexVal h1, hexVal h2, hexVal h3, hexVal h4 with
    | some a, some b, some c, some d => some (((a * 16 + b) * 16 + c) * 16 + d, rest)
    | _, _, _, _ => none
  | _ => none

/-- Single-character string escapes of JSON. -/
def escChar (c : Char) : Option Char :=
  if c = '"' then some '"'
  else if c = '\\' then some '\\'
  else if c = '/' then some '/'
  else if c = 'b' then some '\x08'
  else if c = 'f' then some '\x0C'
  else if c = 'n' then some '\n'
  else if c = 'r' then some '\r'
  else if c = 't' then some '\t'
  else none

/-- The Unicode replacement character. -/
def repChar : Char := '�'

/-- Body of a JSON string after the opening quote.  `\uXXXX` surrogate
pairs are combined into one scalar value; a lone surrogate (which a JS
string could carry but a Lean `Char` cannot) becomes the replacement
character.  Control characters below U+0020 are rejected, as in JSON. -/
def parseStrBody : Nat → List Char → List Char → Option (String × List Char)
  | 0, _, _ => none
  | fuel + 1, acc, s =>
    match s with
    | [] => none
    | '"' :: rest => some (String.mk acc.reverse, rest)
    | '\\' :: 'u' :: rest =>
      match parseHex4 rest with
      | none => none
      | some (n, rest1) =>
        if 0xD800 ≤ n ∧ n ≤ 0xDBFF then
          match rest1 with
          | '\\' :: 'u' :: rest2 =>
            match parseHex4 rest2 with
            | some (m, rest3) =>
              if 0xDC00 ≤ m ∧ m ≤ 0xDFFF then
                parseStrBody fuel
                  (Char.ofNat (0x10000 + (n - 0xD800) * 0x400 + (m - 0xDC00)) :: acc) rest3
              else parseStrBody fuel (repChar :: acc) rest1
            | none => parseStrBody fuel (repChar :: acc) rest1
          | _ => parseStrBody fuel (repChar :: acc) rest1
        else if 0xDC00 ≤ n ∧ n ≤ 0xDFFF then parseStrBody fuel (repChar :: acc) rest1
        else parseStrBody fuel (Char.ofNat n :: acc) rest1
    | '\\' :: c :: rest =>
      match escChar c with
      | some e => parseStrBody fuel (e :: acc) rest
      | none => none
    | c :: rest =>
      if c.toNat < 0x20 then none else parseStrBody fuel (c :: acc) rest

/-- Integer part of a JSON number: `0`, or a nonzero digit followed by
digits. -/
def parseIntPart : List Char → Option (List Char × List Char)
  | '0' :: r => some (['0'], r)
  | c :: r =>
    if '1' ≤ c ∧ c ≤ '9' then
      some (c :: r.takeWhile Char.isDigit, r.dropWhile Char.isDigit)
    else none
  | [] => none

/-- Optional fractional part `.digits` of a JSON number. -/
def parseFracPart (s : List Char) : Option (List Char × List Char) :=
  match s with
  | '.' :: r =>
    let d := r.takeWhile Char.isDigit
    if d.isEmpty then none else some ('.' :: d, r.dropWhile Char.isDigit)
  | _ => some ([], s)

/-- Optional exponent part `e[+-]digits` of a JSON number. -/
def parseExpPart (s : List Char) : Option (List Char × List Char) :=
  match s with
  | e :: r =>
    if e = 'e' ∨ e = 'E' then
      let sgn : List Char × List Char :=
        match r with
        | c :: r1 => if c = '+' ∨ c = '-' then ([c], r1) else ([], c :: r1)
        | [] => ([], [])
      let d := sgn.2.takeWhile Char.isDigit
      if d.isEmpty then none
      else some (e :: (sgn.1 ++ d), sgn.2.dropWhile Char.isDigit)
    else some ([], e :: r)
  | [] => some ([], [])

/-- A JSON number; the produced value is the accepted lexeme. -/
def parseNumber (s : List Char) : Option (String × List Char) :=
  let sgn : List Char × List Char :=
    match s with
    | '-' :: r => (['-'], r)
    | _ => ([], s)
  match parseIntPart sgn.2 with
  | none => none
  | some (ip, s2) =>
    match parseFracPart s2 with
    | none => none
    | some (fp, s3) =>
      match parseExpPart s3 with
      | none => none
      | some (ep, s4) => some (String.mk (sgn.1 ++ ip ++ fp ++ ep), s4)

/-- Record a member of an object under construction: a duplicate key keeps
its first position but takes the later value, as `JSON.parse` does. -/
def objInsert (fields : List (String × Json)) (k : String) (v : Json) :
    List (String × Json) :=
  if fields.any (fun p => p.1 = k) then
    fields.map (fun p => if p.1 = k then (k, v) else p)
  else fields ++ [(k, v)]

/-- Elements of an array after `[`, given a parser `pv` for one value. -/
def parseElemsAux (pv : List Char → Option (Json × List Char)) :
    Nat → List Json → List Char → Option (List Json × List Char)
  | 0, _, _ => none
  | fuel + 1, acc, s =>
    match pv s with
    | none => none
    | some (v, rest) =>
      match rest.dropWhile jsonWsChar with
      | ',' :: r2 => parseElemsAux pv fuel (v :: acc) r2
      | ']' :: r2 => some ((v :: acc).reverse, r2)
      | _ => none

/-- Members of an object after `{`, given a parser `pv` for one value. -/
def parseMembersAux (pv : List Char → Option (Json × List Char)) :
    Nat → List (String × Json) → List Char → Option (List (String × Json) × List Char)
  | 0, _, _ => none
  | fuel + 1, acc, s =>
    match s.dropWhile jsonWsChar with
    | '"' :: r =>
      match parseStrBody (r.length + 1) [] r with
      | none => none
      | some (k, r1) =>
        match r1.dropWhile jsonWsChar with
        | ':' :: r3 =>
          match pv r3 with
          | none => none
          | some (v, r4) =>
            match r4.dropWhile jsonWsChar with
            | ',' :: r6 => parseMembersAux pv fuel (objInsert acc k v) r6
            | '}' :: r6 => some (objInsert acc k v, r6)
            | _ => none
        | _ => none
    | _ => none

/-- One JSON value, consuming leading whitespace. -/
def parseValue : Nat → List Char → Option (Json × List Char)
  | 0, _ => none
  | fuel + 1, s =>
    match s.dropWhile jsonWsChar with
    | '{' :: r =>
      match r.dropWhile jsonWsChar with
      | '}' :: r2 => some (Json.obj [], r2)
      | _ => (parseMembersAux (parseValue fuel) fuel [] r).map
          (fun p => (Json.obj p.1, p.2))
    | '[' :: r =>
      match r.dropWhile jsonWsChar with
      | ']' :: r2 => some (Json.arr [], r2)
      | _ => (parseElemsAux (parseValue fuel) fuel [] r).map
          (fun p => (Json.arr p.1, p.2))
    | '"' :: r => (parseStrBody (r.length + 1) [] r).map (fun p => (Json.str p.1, p.2))
    | 't' :: 'r' :: 'u' :: 'e' :: r => some (Json.bool true, r)
    | 'f' :: 'a' :: 'l' :: 's' :: 'e' :: r => some (Json.bool false, r)
    | 'n' :: 'u' :: 'l' :: 'l' :: r => some (Json.null, r)
    | s1 => (parseNumber s1).map (fun p => (Json.num p.1, p.2))

/-- `JSON.parse`: a complete JSON text with optional surrounding
whitespace; anything else fails (the `catch {}` in the source observes
only success or failure). -/
def jsonParse (s : List Char) : Option Json :=
  match parseValue (2 * s.length + 4) s with
  | some (v, rest) => if (rest.dropWhile jsonWsChar).isEmpty then some v else none
  | none => none

/-! ### JS string operations used by the stream decoder

`String.prototype.trim`, `String.prototype.split` with a string
separator (leftmost, non-overlapping matches), `startsWith`, and the
`replace(/^data:\s*/, '')` stripping.  JS strings are `List Char`. -/

/-- The whitespace class of JS (`\s` in a regex and `trim`): ASCII
whitespace, NBSP, the Unicode space separators, line/paragraph
separators and the BOM. -/
def jsWsChar (c : Char) : Bool :=
  c = ' ' || c = '\t' || c = '\n' || c = '\r' || c = '\x0B' || c = '\x0C' ||
  c = ' ' || c = ' ' || (' ' ≤ c && c ≤ ' ') ||
  c = ' ' || c = ' ' || c = ' ' || c = ' ' ||
  c = '　' || c = '﻿'

/-- `s.trim()`: strip leading and trailing JS whitespace. -/
def jsTrim (s : List Char) : List Char :=
  ((s.dropWhile jsWsChar).reverse.dropWhile jsWsChar).reverse

/-- Index of the leftmost occurrence of `sep` in `s`, if any. -/
def firstMatch (sep : List Char) : List Char → Option Nat
  | [] => if sep.isEmpty then some 0 else none
  | c :: t =>
    if sep.isPrefixOf (c :: t) then some 0
    else (firstMatch sep t).map (· + 1)

/-- Fueled worker for `jsSplit`.  Each step removes at least one
character when `sep` is nonempty, so `s.length + 1` fuel always reaches
the no-match case. -/
def jsSplitF : Nat → List Char → List Char → List (List Char)
  | 0, _, s => [s]
  | fuel + 1, sep, s =>
    match firstMatch sep s with
    | none => [s]
    | some i => s.take i :: jsSplitF fuel sep (s.drop (i + sep.length))

/-- `s.split(sep)` of JS: pieces between leftmost non-overlapping
occurrences of `sep`; an empty separator splits into single
characters. -/
def jsSplit (sep s : List Char) : List (List Char) :=
  if sep.isEmpty then s.map (fun c => [c]) else jsSplitF (s.length + 1) sep s

/-! ### Frame decoding (the body of the read loop in `startAgent`)

```
const parts = buffer.split('\n\n')
buffer = parts.pop() || ''
for (const chunk of parts) {
  const line = chunk.trim().split('\n').find(l => l.startsWith('data:'))
  if (!line) continue
  const payload = line.replace(/^data:\s*/, '')
  if (payload === '[DONE]') { setEvents(prev => [...prev, { type: 'done' }]); break }
  try { const obj = JSON.parse(payload); setEvents(prev => [...prev, obj]) } catch {}
}
```
-/

/-- The `data:` marker. -/
def dataMarker : List Char := "data:".data

/-- The termination sentinel `[DONE]`. -/
def sentinel : List Char := "[DONE]".data

/-- The frame delimiter: a blank line, i.e. `"\n\n"`. -/
def delim : List Char := ['\n', '\n']

/-- `chunk.trim().split('\n').find(l => l.startsWith('data:'))`. -/
def findDataLine (frame : List Char) : Option (List Char) :=
  (jsSplit ['\n'] (jsTrim frame)).find? (fun l => dataMarker.isPrefixOf l)

/-- `line.replace(/^data:\s*/, '')` for a line known to start with
`data:`: drop the marker and the following whitespace run. -/
def linePayload (line : List Char) : List Char :=
  (line.drop dataMarker.length).dropWhile jsWsChar

/-- What one frame contributes to the loop: no `data:` line (`continue`),
the sentinel (`break` after appending `done`), a parsed object
(append and continue), or a `JSON.parse` failure (silently continue). -/
inductive FrameStep where
  | noLine
  | done
  | parsed (j : Json)
  | badJson

/-- Decode one frame of the stream. -/
def frameStep (frame : List Char) : FrameStep :=
  match findDataLine frame with
  | none => FrameStep.noLine
  | some line =>
    let payload := linePayload line
    if payload = sentinel then FrameStep.done
    else
      match jsonParse payload with
      | some j => FrameStep.parsed j
      | none => FrameStep.badJson

/-- Boolean discriminator: does this frame carry the sentinel payload? -/
def frameIsDone (frame : List Char) : Bool :=
  match frameStep frame with
  | FrameStep.done => true
  | _ => false

/-- The `{ type: 'done' }` object the loop appends on the sentinel. -/
def doneEvent : Json := Json.obj [("type", Json.str "done")]

/-- The `{ type: 'error', value: msg }` object appended in the catch
block of `startAgent`. -/
def errorEvent (msg : String) : Json :=
  Json.obj [("type", Json.str "error"), ("value", Json.str msg)]

/-- The events appended by the `for (const chunk of parts)` loop over the
complete frames of one feed: the sentinel appends `done` and breaks out of
the loop, discarding the remaining frames of this call. -/
def processFrames : List (List Char) → List Json
  | [] => []
  | f :: rest =>
    match frameStep f with
    | FrameStep.done => [doneEvent]
    | FrameStep.parsed j => j :: processFrames rest
    | _ => processFrames rest

/-- The complete frames closed by the text accumulated so far:
`parts` without the piece put back into `buffer`. -/
def framesOf (t : List Char) : List (List Char) :=
  (jsSplit delim t).dropLast

/-- The pending remainder: `parts.pop() || ''`. -/
def remOf (t : List Char) : List Char :=
  (jsSplit delim t).getLastD []

/-- One execution of the loop body on a newly decoded text piece `s`
with pending remainder `buffer`: the produced events and the new
remainder. -/
def feedText (buffer s : List Char) : List Json × List Char :=
  (processFrames (framesOf (buffer ++ s)), remOf (buffer ++ s))

/-- Successive feeds of text pieces, accumulating events in order. -/
def feedMany : List Char → List (List Char) → List Json × List Char
  | buffer, [] => ([], buffer)
  | buffer, s :: rest =>
    let r1 := feedText buffer s
    let r2 := feedMany r1.2 rest
    (r1.1 ++ r2.1, r2.2)

/-! ### The streaming UTF-8 decoder

`new TextDecoder('utf-8')` with `decode(value, { stream: true })`,
following the WHATWG utf-8 decode algorithm: a partial multi-byte
sequence at the end of a chunk is carried in the decoder state; invalid
bytes become U+FFFD, an invalid continuation byte is reprocessed as a
lead byte.  The loop never flushes the decoder, so a trailing incomplete
sequence at end of stream is simply dropped. -/

/-- Decoder state: code point accumulated so far, number of continuation
bytes still needed, and the admissible range for the next byte. -/
structure Utf8State where
  codePoint : Nat
  needed : Nat
  lower : Nat
  upper : Nat
deriving DecidableEq

/-- The state between characters. -/
def cleanU8 : Utf8State := ⟨0, 0, 0x80, 0xBF⟩

/-- Handle a byte in lead position. -/
def utf8Lead (b : Nat) : Utf8State × List Char :=
  if b ≤ 0x7F then (cleanU8, [Char.ofNat b])
  else if 0xC2 ≤ b ∧ b ≤ 0xDF then
    ({ codePoint := b - 0xC0, needed := 1, lower := 0x80, upper := 0xBF }, [])
  else if 0xE0 ≤ b ∧ b ≤ 0xEF then
    ({ codePoint := b - 0xE0, needed := 2,
       lower := if b = 0xE0 then 0xA0 else 0x80,
       upper := if b = 0xED then 0x9F else 0xBF }, [])
  else if 0xF0 ≤ b ∧ b ≤ 0xF4 then
    ({ codePoint := b - 0xF0, needed := 3,
       lower := if b = 0xF0 then 0x90 else 0x80,
       upper := if b = 0xF4 then 0x8F else 0xBF }, [])
  else (cleanU8, [repChar])

/-- Process one byte. -/
def utf8Step (st : Utf8State) (b : Nat) : Utf8State × List Char :=
  if st.needed = 0 then utf8Lead b
  else if st.lower ≤ b ∧ b ≤ st.upper then
    let cp := st.codePoint * 64 + (b - 0x80)
    if st.needed = 1 then (cleanU8, [Char.ofNat cp])
    else ({ codePoint := cp, needed := st.needed - 1, lower := 0x80, upper := 0xBF }, [])
  else
    let r := utf8Lead b
    (r.1, repChar :: r.2)

/-- `decoder.decode(bytes, { stream: true })`: fold `utf8Step` over the
chunk, collecting the decoded characters. -/
def utf8Feed : Utf8State → List Nat → Utf8State × List Char
  | st, [] => (st, [])
  | st, b :: bs =>
    let r := utf8Step st b
    let rest := utf8Feed r.1 bs
    (rest.1, r.2 ++ rest.2)

/-- UTF-8 encoding of one character. -/
def encodeChar (c : Char) : List Nat :=
  let n := c.toNat
  if n ≤ 0x7F then [n]
  else if n ≤ 0x7FF then [0xC0 + n / 64, 0x80 + n % 64]
  else if n ≤ 0xFFFF then
    [0xE0 + n / 4096, 0x80 + (n / 64) % 64, 0x80 + n % 64]
  else
    [0xF0 + n / 262144, 0x80 + (n / 4096) % 64, 0x80 + (n / 64) % 64, 0x80 + n % 64]

/-- UTF-8 encoding of a text: the byte stream a server sends for it. -/
def utf8Encode (s : List Char) : List Nat :=
  (s.map encodeChar).flatten

/-! ### The stream session (`startAgent`) -/

/-- Combined state of the read loop: the `TextDecoder` and the pending
`buffer` string. -/
structure DecoderState where
  u8 : Utf8State
  buffer : List Char

/-- The fresh state at the start of a session. -/
def initDecoder : DecoderState := ⟨cleanU8, []⟩

/-- One iteration of the `while` loop, then the rest: decode the byte
chunk to text, run the splitting/event loop, continue with the next
chunk.  The `break` on the sentinel only leaves the inner `for` loop, so
later chunks are still processed. -/
def feedAll : DecoderState → List (List Nat) → List Json × DecoderState
  | st, [] => ([], st)
  | st, c :: cs =>
    let r1 := utf8Feed st.u8 c
    let r2 := feedText st.buffer r1.2
    let rest := feedAll ⟨r1.1, r2.2⟩ cs
    (r2.1 ++ rest.1, rest.2)

/-- The per-chunk text pieces the decoder produces from a byte-chunk
sequence (used to relate the byte level to the text level). -/
def textsOf : Utf8State → List (List Nat) → List (List Char)
  | _, [] => []
  | st, c :: cs =>
    let r := utf8Feed st c
    r.2 :: textsOf r.1 cs

/-- How a session ends.  The source keeps no explicit state variable;
this is the specification's `StreamSessionState` classification of the
three exit paths of `startAgent` (clean end of data / read failure or
unusable response / abort raised by `stopAgent`). -/
inductive SessionEnd where
  | completed
  | errored
  | cancelled
deriving DecidableEq

/-- How the transport behaves after delivering its byte chunks. -/
inductive ReadEnd where
  | eof
  | failure (msg : String)
  | abort (msg : String)

/-- The outcome of `fetch` as `startAgent` observes it: the request
itself fails, the response is not usable as a stream
(`!res.ok || !res.body`), or a streamable body delivering `chunks` and
then ending as `ending` says.  An abort raised by `stopAgent` is seen at
the next `reader.read()`, i.e. after the chunks delivered so far. -/
inductive StartResult where
  | fetchError (msg : String)
  | badResponse
  | ok (chunks : List (List Nat)) (ending : ReadEnd)

/-- `startAgent`: the event list built by the run and the terminal
session state.  A failed start or a read error lands in the `catch`
block, which appends one `error` event; a clean end of data appends
nothing. -/
def startAgent (input : StartResult) : List Json × SessionEnd :=
  match input with
  | StartResult.fetchError msg => ([errorEvent msg], SessionEnd.errored)
  | StartResult.badResponse =>
    ([errorEvent "Failed to start stream"], SessionEnd.errored)
  | StartResult.ok chunks ending =>
    let r := feedAll initDecoder chunks
    match ending with
    | ReadEnd.eof => (r.1, SessionEnd.completed)
    | ReadEnd.failure msg => (r.1 ++ [errorEvent msg], SessionEnd.errored)
    | ReadEnd.abort msg => (r.1 ++ [errorEvent msg], SessionEnd.cancelled)

/-! ### The upload queue (`handleFiles`)

```
const items = files.map(f => ({ file: f, status: 'queued' }))
setUploads(prev => [...items, ...prev])
for (const item of items) {
  setUploads(prev => prev.map(u => u.file === item.file ? { ...u, status: 'uploading' } : u))
  ...
  try { ...; if (!res.ok) throw ...; await res.json();
        setUploads(prev => prev.map(u => u.file === item.file ? { ...u, status: 'done' } : u))
  } catch { setUploads(prev => prev.map(u => u.file === item.file ? { ...u, status: 'error' } : u)) }
}
```

File objects are identified by a `Nat`: `u.file === item.file` is
reference identity, so two distinct `File` objects are distinct numbers
and the same object enqueued twice is the same number. -/

/-- Per-item lifecycle status. -/
inductive UploadStatus where
  | queued
  | uploading
  | done
  | error
deriving DecidableEq

/-- One entry of the `uploads` list. -/
structure UploadItem where
  file : Nat
  status : UploadStatus
deriving DecidableEq

/-- `files.map(f => ({ file: f, status: 'queued' }))`. -/
def mkItems (files : List Nat) : List UploadItem :=
  files.map (fun f => { file := f, status := UploadStatus.queued })

/-- `setUploads(prev => [...items, ...prev])`: the new batch is placed
in front of the existing list. -/
def enqueue (files : List Nat) (prev : List UploadItem) : List UploadItem :=
  mkItems files ++ prev

/-- `prev.map(u => u.file === f ? { ...u, status: s } : u)`. -/
def setStatus (l : List UploadItem) (f : Nat) (s : UploadStatus) : List UploadItem :=
  l.map (fun u => if u.file = f then { u with status := s } else u)

/-- How one upload request turns out: success, or one of the failure
modes that all land in the `catch` block (non-ok response, fetch
rejection, body not JSON). -/
inductive UploadResult where
  | ok
  | badStatus
  | transportFail
  | badJson
deriving DecidableEq

/-- The terminal status the catch/success paths assign. -/
def uploadTerminal : UploadResult → UploadStatus
  | UploadResult.ok => UploadStatus.done
  | _ => UploadStatus.error

/-- The `for (const item of items)` loop.  `outcome` gives each file's
request result.  Returns the requests issued in order and every
successive `uploads` state (one entry per `setUploads` call inside the
loop). -/
def runBatch (outcome : Nat → UploadResult) :
    List UploadItem → List UploadItem → List Nat × List (List UploadItem)
  | [], _ => ([], [])
  | item :: rest, st =>
    let st1 := setStatus st item.file UploadStatus.uploading
    let st2 := setStatus st1 item.file (uploadTerminal (outcome item.file))
    let r := runBatch outcome rest st2
    (item.file :: r.1, st1 :: st2 :: r.2)

/-- `handleFiles(files)` starting from upload list `prev`: requests in
order, and all states the `uploads` list goes through (the enqueue state
first). -/
def handleFiles (outcome : Nat → UploadResult) (files : List Nat)
    (prev : List UploadItem) : List Nat × List (List UploadItem) :=
  let st0 := enqueue files prev
  let r := runBatch outcome (mkItems files) st0
  (r.1, st0 :: r.2)

/-! ### The query client (`runQuery`)

```
setResults([])
try {
  const res = await fetch(...)
  const data = await res.json()
  setResults(data.results || [])
} catch (e) { console.error(e) }
```

Note the response status is never consulted; the only failure modes are
a rejected `fetch` and a body that is not JSON, and both leave the
`[]` written at the start (the error goes only to `console.error`). -/

/-- What the query request produces: a transport failure, or a response
with some body text. -/
inductive FetchOutcome where
  | networkError (msg : String)
  | response (bodyText : String)

/-- Property access `data.results`: a field of an object, otherwise
absent.  (On `null` the access throws, which the `catch` absorbs; the
observable result `[]` is the same.) -/
def getField (j : Json) (k : String) : Option Json :=
  match j with
  | Json.obj fields => (fields.find? (fun p => p.1 = k)).map (fun p => p.2)
  | _ => none

/-- All digits of a number lexeme's mantissa are zero, i.e. the numeric
value is `0`. -/
def numIsZero (lexeme : String) : Bool :=
  (lexeme.data.takeWhile (fun c => c ≠ 'e' ∧ c ≠ 'E')).all
    (fun c => ¬ ('1' ≤ c ∧ c ≤ '9'))

/-- JS truthiness of a parsed JSON value, for `data.results || []`. -/
def jsTruthy : Json → Bool
  | Json.null => false
  | Json.bool b => b
  | Json.num lexeme => ¬ numIsZero lexeme
  | Json.str s => ¬ s.isEmpty
  | Json.arr _ => true
  | Json.obj _ => true

/-- `runQuery`: the final value of the `results` state. -/
def runQuery (o : FetchOutcome) : Json :=
  match o with
  | FetchOutcome.networkError _ => Json.arr []
  | FetchOutcome.response text =>
    match jsonParse text.data with
    | none => Json.arr []
    | some data =>
      match getField data "results" with
      | none => Json.arr []
      | some v => if jsTruthy v then v else Json.arr []

/-! ### Properties of the splitter

`firstMatch` is characterised by "match here, and nowhere earlier"; from
that, `jsSplit` satisfies the buffering identity that makes the
incremental decoder agree with splitting the whole text. -/

theorem pre_of_append {p x y : List Char} (h : p <+: x ++ y)
    (hl : p.length ≤ x.length) : p <+: x := by
  rw [List.prefix_iff_eq_take] at h ⊢
  rwa [List.take_append_of_le_length hl] at h

theorem pre_append_right {p x : List Char} (y : List Char) (h : p <+: x) :
    p <+: x ++ y :=
  h.trans (List.prefix_append x y)

theorem firstMatch_some_pre {sep : List Char} :
    ∀ {s : List Char} {i : Nat}, firstMatch sep s = some i → sep <+: s.drop i := by
  intro s
  induction s with
  | nil =>
    intro i h
    simp only [firstMatch] at h
    split at h
    · cases h
      simp_all [List.isEmpty_iff]
    · cases h
  | cons c t ih =>
    intro i h
    simp only [firstMatch] at h
    split at h
    · cases h
      simpa using List.isPrefixOf_iff_prefix.mp (by assumption)
    · rcases Option.map_eq_some'.mp h with ⟨j, hj, rfl⟩
      simpa using ih hj

theorem firstMatch_some_min {sep : List Char} :
    ∀ {s : List Char} {i : Nat}, firstMatch sep s = some i →
      ∀ j, j < i → ¬ sep <+: s.drop j := by
  intro s
  induction s with
  | nil =>
    intro i h j hj
    simp only [firstMatch] at h
    split at h
    · cases h; omega
    · cases h
  | cons c t ih =>
    intro i h j hj
    simp only [firstMatch] at h
    split at h
    · cases h; omega
    · rcases Option.map_eq_some'.mp h with ⟨k, hk, rfl⟩
      match j with
      | 0 =>
        intro hpre
        exact absurd (List.isPrefixOf_iff_prefix.mpr (by simpa using hpre))
          (by simp_all)
      | j' + 1 =>
        simpa using ih hk j' (by omega)

theorem firstMatch_none_no {sep : List Char} :
    ∀ {s : List Char}, firstMatch sep s = none → ∀ j, ¬ sep <+: s.drop j := by
  intro s
  induction s with
  | nil =>
    intro h j hpre
    simp only [firstMatch] at h
    split at h
    · cases h
    · have : sep = [] := List.prefix_nil.mp (by simpa using hpre)
      simp_all [List.isEmpty_iff]
  | cons c t ih =>
    intro h j
    simp only [firstMatch] at h
    split at h
    · cases h
    · match j with
      | 0 =>
        intro hpre
        exact absurd (List.isPrefixOf_iff_prefix.mpr (by simpa using hpre))
          (by simp_all)
      | j' + 1 =>
        simpa using ih (Option.map_eq_none'.mp h) j'

theorem firstMatch_eq_some {sep : List Char} :
    ∀ {s : List Char} {i : Nat}, sep <+: s.drop i →
      (∀ j, j < i → ¬ sep <+: s.drop j) → firstMatch sep s = some i := by
  intro s
  induction s with
  | nil =>
    intro i hpre hmin
    have hsep : sep = [] := List.prefix_nil.mp (by simpa using hpre)
    have hi : i = 0 := by
      by_contra hne
      exact hmin 0 (by omega) (by simp [hsep])
    subst hi hsep
    simp [firstMatch, List.isEmpty_iff]
  | cons c t ih =>
    intro i hpre hmin
    match i with
    | 0 =>
      simp only [firstMatch]
      rw [if_pos (List.isPrefixOf_iff_prefix.mpr (by simpa using hpre))]
    | k + 1 =>
      simp only [firstMatch]
      rw [if_neg (fun hb => hmin 0 (by omega)
        (by simpa using List.isPrefixOf_iff_prefix.mp hb))]
      have := ih (by simpa using hpre)
        (fun j hj => by simpa using hmin (j + 1) (by omega))
      simp [this]

theorem firstMatch_bound {sep s : List Char} {i : Nat} (hsep : sep ≠ [])
    (h : firstMatch sep s = some i) : i + sep.length ≤ s.length := by
  have hl := (firstMatch_some_pre h).length_le
  rw [List.length_drop] at hl
  have : 0 < sep.length := List.length_pos.mpr hsep
  omega

theorem firstMatch_ne_empty {sep s : List Char} (h : firstMatch sep s = none) :
    sep ≠ [] := by
  intro hsep
  exact firstMatch_none_no h 0 (by simp [hsep])

theorem jsSplitF_fuel {sep : List Char} (hsep : sep ≠ []) :
    ∀ (f1 f2 : Nat) (s : List Char), s.length < f1 → s.length < f2 →
      jsSplitF f1 sep s = jsSplitF f2 sep s := by
  intro f1
  induction f1 with
  | zero => intro f2 s h1 h2; exact absurd h1 (by omega)
  | succ g ih =>
    intro f2 s h1 h2
    cases f2 with
    | zero => exact absurd h2 (by omega)
    | succ f2' =>
      cases hfm : firstMatch sep s with
      | none => simp only [jsSplitF, hfm]
      | some i =>
        have hb := firstMatch_bound hsep hfm
        have hL : 0 < sep.length := List.length_pos.mpr hsep
        simp only [jsSplitF, hfm]
        rw [ih f2' (s.drop (i + sep.length))
          (by rw [List.length_drop]; omega) (by rw [List.length_drop]; omega)]

theorem jsSplit_of_none {sep s : List Char} (h : firstMatch sep s = none) :
    jsSplit sep s = [s] := by
  have hsep := firstMatch_ne_empty h
  simp only [jsSplit]
  rw [if_neg (by simpa [List.isEmpty_iff] using hsep)]
  simp [jsSplitF, h]

theorem jsSplit_of_some {sep s : List Char} {i : Nat} (hsep : sep ≠ [])
    (h : firstMatch sep s = some i) :
    jsSplit sep s = s.take i :: jsSplit sep (s.drop (i + sep.length)) := by
  have hb := firstMatch_bound hsep h
  have hL : 0 < sep.length := List.length_pos.mpr hsep
  have hempty : ¬ (sep.isEmpty = true) := by simpa [List.isEmpty_iff] using hsep
  simp only [jsSplit, if_neg hempty]
  conv_lhs => rw [jsSplitF]
  simp only [h]
  rw [jsSplitF_fuel hsep (s.length) ((s.drop (i + sep.length)).length + 1)
    (s.drop (i + sep.length)) (by rw [List.length_drop]; omega)
    (by omega)]

theorem jsSplit_ne_nil {sep s : List Char} (hsep : sep ≠ []) :
    jsSplit sep s ≠ [] := by
  cases hfm : firstMatch sep s with
  | none => rw [jsSplit_of_none hfm]; simp
  | some i => rw [jsSplit_of_some hsep hfm]; simp

theorem getLastD_of_ne_nil {α : Type} {l : List α} (h : l ≠ []) (d1 d2 : α) :
    l.getLastD d1 = l.getLastD d2 := by
  cases l with
  | nil => exact absurd rfl h
  | cons a t => rw [List.getLastD_cons, List.getLastD_cons]

theorem getLastD_mem {α : Type} {l : List α} (h : l ≠ []) (d : α) :
    l.getLastD d ∈ l := by
  induction l generalizing d with
  | nil => exact absurd rfl h
  | cons a t ih =>
    rw [List.getLastD_cons]
    cases t with
    | nil => simp
    | cons b t' => exact List.mem_cons_of_mem a (ih (by simp) a)

theorem firstMatch_append_some {sep a : List Char} {i : Nat} (hsep : sep ≠ [])
    (h : firstMatch sep a = some i) (b : List Char) :
    firstMatch sep (a ++ b) = some i := by
  have hb := firstMatch_bound hsep h
  have hL : 0 < sep.length := List.length_pos.mpr hsep
  apply firstMatch_eq_some
  · rw [List.drop_append_of_le_length (by omega)]
    exact pre_append_right b (firstMatch_some_pre h)
  · intro j hj hpre
    rw [List.drop_append_of_le_length (by omega : j ≤ a.length)] at hpre
    have hlen : sep.length ≤ (a.drop j).length := by
      rw [List.length_drop]; omega
    exact firstMatch_some_min h j hj (pre_of_append hpre hlen)

theorem jsSplit_append {sep : List Char} (hsep : sep ≠ []) (a b : List Char) :
    jsSplit sep (a ++ b)
      = (jsSplit sep a).dropLast
        ++ jsSplit sep ((jsSplit sep a).getLastD [] ++ b) := by
  have H : ∀ (n : Nat) (a b : List Char), a.length ≤ n →
      jsSplit sep (a ++ b)
        = (jsSplit sep a).dropLast
          ++ jsSplit sep ((jsSplit sep a).getLastD [] ++ b) := by
    intro n
    induction n with
    | zero =>
      intro a b ha
      have : a = [] := List.eq_nil_of_length_eq_zero (by omega)
      subst this
      have hfm0 : firstMatch sep [] = none := by
        simp only [firstMatch]
        rw [if_neg (by simpa [List.isEmpty_iff] using hsep)]
      rw [jsSplit_of_none hfm0]
      simp
    | succ n ih =>
      intro a b ha
      cases hfm : firstMatch sep a with
      | none =>
        rw [jsSplit_of_none hfm]
        simp
      | some i =>
        have hb := firstMatch_bound hsep hfm
        have hL : 0 < sep.length := List.length_pos.mpr hsep
        rw [jsSplit_of_some hsep (firstMatch_append_some hsep hfm b),
          jsSplit_of_some hsep hfm]
        rw [List.take_append_of_le_length (by omega : i ≤ a.length),
          List.drop_append_of_le_length (by omega : i + sep.length ≤ a.length)]
        have hne : jsSplit sep (a.drop (i + sep.length)) ≠ [] :=
          jsSplit_ne_nil hsep
        rw [List.dropLast_cons_of_ne_nil hne, List.getLastD_cons,
          getLastD_of_ne_nil hne (a.take i) [],
          ih (a.drop (i + sep.length)) b (by rw [List.length_drop]; omega)]
        simp
  exact H a.length a b (le_refl _)

theorem dropLast_append_ne {α : Type} (X : List α) {Y : List α} (h : Y ≠ []) :
    (X ++ Y).dropLast = X ++ Y.dropLast := by
  induction X with
  | nil => simp
  | cons x xs ih =>
    rw [List.cons_append,
      List.dropLast_cons_of_ne_nil (fun hc => h (List.append_eq_nil.mp hc).2),
      ih, List.cons_append]

theorem getLastD_append_ne {α : Type} (X : List α) {Y : List α} (h : Y ≠ []) :
    ∀ d, (X ++ Y).getLastD d = Y.getLastD d := by
  induction X with
  | nil => intro d; rfl
  | cons x xs ih =>
    intro d
    rw [List.cons_append, List.getLastD_cons, ih x]
    exact getLastD_of_ne_nil h x d

theorem delim_ne_nil : delim ≠ [] := by simp [delim]

theorem jsSplit_mem_none {sep : List Char} (hsep : sep ≠ []) :
    ∀ {s p : List Char}, p ∈ jsSplit sep s → firstMatch sep p = none := by
  have hL : 0 < sep.length := List.length_pos.mpr hsep
  have H : ∀ (n : Nat) (s p : List Char), s.length ≤ n →
      p ∈ jsSplit sep s → firstMatch sep p = none := by
    intro n
    induction n with
    | zero =>
      intro s p hs hp
      have h0 : s = [] := List.eq_nil_of_length_eq_zero (by omega)
      subst h0
      have hfm0 : firstMatch sep [] = none := by
        simp only [firstMatch]
        rw [if_neg (by simpa [List.isEmpty_iff] using hsep)]
      rw [jsSplit_of_none hfm0] at hp
      simp at hp
      subst hp
      exact hfm0
    | succ n ih =>
      intro s p hs hp
      cases hfm : firstMatch sep s with
      | none =>
        rw [jsSplit_of_none hfm] at hp
        simp at hp
        subst hp
        exact hfm
      | some i =>
        have hb := firstMatch_bound hsep hfm
        rw [jsSplit_of_some hsep hfm] at hp
        rcases List.mem_cons.mp hp with h1 | h2
        · subst h1
          cases hfm2 : firstMatch sep (s.take i) with
          | none => rfl
          | some j =>
            exfalso
            have hbj := firstMatch_bound hsep hfm2
            have hlen : (s.take i).length = i := by
              rw [List.length_take]; omega
            have hpre := firstMatch_some_pre hfm2
            rw [List.drop_take] at hpre
            have hpre2 : sep <+: s.drop j :=
              hpre.trans (List.take_prefix _ _)
            exact firstMatch_some_min hfm j (by omega) hpre2
        · exact ih (s.drop (i + sep.length)) p
            (by rw [List.length_drop]; omega) h2
  intro s p hp
  exact H s.length s p (le_refl _) hp

theorem framesOf_append (a b : List Char) :
    framesOf (a ++ b) = framesOf a ++ framesOf (remOf a ++ b) := by
  simp only [framesOf, remOf]
  rw [jsSplit_append delim_ne_nil a b,
    dropLast_append_ne _ (jsSplit_ne_nil delim_ne_nil)]

theorem remOf_append (a b : List Char) :
    remOf (a ++ b) = remOf (remOf a ++ b) := by
  simp only [framesOf, remOf]
  rw [jsSplit_append delim_ne_nil a b,
    getLastD_append_ne _ (jsSplit_ne_nil delim_ne_nil)]

theorem framesOf_no_match {b : List Char} (h : firstMatch delim b = none) :
    framesOf b = [] := by
  simp [framesOf, jsSplit_of_none h]

theorem remOf_no_match {b : List Char} (h : firstMatch delim b = none) :
    remOf b = b := by
  simp [remOf, jsSplit_of_none h]

theorem remOf_no_delim (t : List Char) : firstMatch delim (remOf t) = none :=
  jsSplit_mem_none delim_ne_nil
    (getLastD_mem (jsSplit_ne_nil delim_ne_nil) [])

theorem processFrames_append {xs ys : List (List Char)}
    (h : ∀ f ∈ xs, frameIsDone f = false) :
    processFrames (xs ++ ys) = processFrames xs ++ processFrames ys := by
  induction xs with
  | nil => simp [processFrames]
  | cons f rest ih =>
    have hf := h f (by simp)
    have hrest : ∀ g ∈ rest, frameIsDone g = false :=
      fun g hg => h g (by simp [hg])
    rw [List.cons_append]
    cases hstep : frameStep f with
    | done => exact absurd hf (by simp [frameIsDone, hstep])
    | parsed j => simp only [processFrames, hstep, ih hrest, List.cons_append]
    | noLine => simp only [processFrames, hstep, ih hrest]
    | badJson => simp only [processFrames, hstep, ih hrest]

/-- The central identity of the incremental decoder: feeding any sequence
of text pieces produces exactly the events of the complete frames of the
concatenated text, and leaves its final remainder as the buffer —
provided the buffer holds no delimiter (as the real buffer never does)
and no sentinel frame is followed by a further complete frame (the
sentinel `break` would discard the rest of that feed's frames). -/
theorem feedMany_flatten :
    ∀ (cs : List (List Char)) (b : List Char),
      firstMatch delim b = none →
      (∀ f ∈ (framesOf (b ++ cs.flatten)).dropLast, frameIsDone f = false) →
      feedMany b cs
        = (processFrames (framesOf (b ++ cs.flatten)), remOf (b ++ cs.flatten)) := by
  intro cs
  induction cs with
  | nil =>
    intro b hb _
    simp only [feedMany, List.flatten_nil, List.append_nil]
    rw [framesOf_no_match hb, remOf_no_match hb]
    simp [processFrames]
  | cons c rest ih =>
    intro b hb hwf
    have hassoc : b ++ (c :: rest).flatten = (b ++ c) ++ rest.flatten := by
      simp [List.flatten_cons, List.append_assoc]
    have hsplit : framesOf ((b ++ c) ++ rest.flatten)
        = framesOf (b ++ c) ++ framesOf (remOf (b ++ c) ++ rest.flatten) :=
      framesOf_append (b ++ c) rest.flatten
    have hwf2 : ∀ f ∈ (framesOf (b ++ c) ++
        framesOf (remOf (b ++ c) ++ rest.flatten)).dropLast, frameIsDone f = false := by
      intro f hf
      apply hwf
      rw [hassoc, hsplit]
      exact hf
    have hwfY : ∀ f ∈ (framesOf (remOf (b ++ c) ++ rest.flatten)).dropLast,
        frameIsDone f = false := by
      intro f hf
      by_cases hY : framesOf (remOf (b ++ c) ++ rest.flatten) = []
      · rw [hY] at hf; simp at hf
      · apply hwf2
        rw [dropLast_append_ne _ hY]
        exact List.mem_append_right _ hf
    have hrec := ih (remOf (b ++ c)) (remOf_no_delim (b ++ c)) hwfY
    simp only [feedMany, feedText, hrec]
    rw [hassoc, hsplit, remOf_append (b ++ c) rest.flatten]
    refine Prod.ext ?_ rfl
    simp only
    by_cases hX : ∀ f ∈ framesOf (b ++ c), frameIsDone f = false
    · rw [processFrames_append hX]
    · push_neg at hX
      rcases hX with ⟨f, hfmem, hfdone⟩
      have hY : framesOf (remOf (b ++ c) ++ rest.flatten) = [] := by
        by_contra hYne
        have : f ∈ (framesOf (b ++ c) ++
            framesOf (remOf (b ++ c) ++ rest.flatten)).dropLast := by
          rw [dropLast_append_ne _ hYne]
          exact List.mem_append_left _ hfmem
        exact hfdone (hwf2 f this)
      rw [hY]
      simp [processFrames]

/-! ### Correctness of the streaming UTF-8 decoder on valid input

Feeding the encoding of a text, in any chunking, decodes to exactly that
text: `utf8Feed` is a fold over bytes, and each character's encoded
bytes step the clean state back to clean, emitting the character. -/

theorem utf8Feed_append (st : Utf8State) (a b : List Nat) :
    utf8Feed st (a ++ b)
      = ((utf8Feed (utf8Feed st a).1 b).1,
         (utf8Feed st a).2 ++ (utf8Feed (utf8Feed st a).1 b).2) := by
  induction a generalizing st with
  | nil => simp [utf8Feed]
  | cons x xs ih =>
    simp only [List.cons_append, utf8Feed, List.append_eq]
    rw [ih]
    simp [List.append_assoc]

theorem utf8Step_clean_ascii {b : Nat} (h : b ≤ 0x7F) :
    utf8Step cleanU8 b = (cleanU8, [Char.ofNat b]) := by
  simp [utf8Step, utf8Lead, cleanU8, h]

theorem utf8_decode_two {n : Nat} (h1 : 0x80 ≤ n) (h2 : n ≤ 0x7FF) :
    utf8Feed cleanU8 [0xC0 + n / 64, 0x80 + n % 64] = (cleanU8, [Char.ofNat n]) := by
  have s1 : utf8Step cleanU8 (0xC0 + n / 64)
      = (⟨n / 64, 1, 0x80, 0xBF⟩, []) := by
    have hA : ¬ (0xC0 + n / 64 ≤ 0x7F) := by omega
    have hB : 0xC2 ≤ 0xC0 + n / 64 ∧ 0xC0 + n / 64 ≤ 0xDF := by
      constructor <;> omega
    simp only [utf8Step, utf8Lead, cleanU8, if_true]
    rw [if_neg hA, if_pos hB]
    have e : 0xC0 + n / 64 - 0xC0 = n / 64 := by omega
    rw [e]
  have s2 : utf8Step ⟨n / 64, 1, 0x80, 0xBF⟩ (0x80 + n % 64)
      = (cleanU8, [Char.ofNat n]) := by
    have hC : (0x80 : Nat) ≤ 0x80 + n % 64 ∧ 0x80 + n % 64 ≤ 0xBF := by
      constructor <;> omega
    simp only [utf8Step]
    rw [if_neg (by simp), if_pos hC]
    simp only [if_true]
    have e : n / 64 * 64 + (0x80 + n % 64 - 0x80) = n := by omega
    rw [e]
  simp only [utf8Feed, s1, s2]
  simp

theorem utf8_decode_three {n : Nat} (h1 : 0x800 ≤ n) (h2 : n ≤ 0xFFFF)
    (hs : n < 0xD800 ∨ 0xDFFF < n) :
    utf8Feed cleanU8 [0xE0 + n / 4096, 0x80 + n / 64 % 64, 0x80 + n % 64]
      = (cleanU8, [Char.ofNat n]) := by
  have s1 : utf8Step cleanU8 (0xE0 + n / 4096)
      = (⟨n / 4096, 2, if 0xE0 + n / 4096 = 0xE0 then 0xA0 else 0x80,
          if 0xE0 + n / 4096 = 0xED then 0x9F else 0xBF⟩, []) := by
    have hA : ¬ (0xE0 + n / 4096 ≤ 0x7F) := by omega
    have hB : ¬ (0xC2 ≤ 0xE0 + n / 4096 ∧ 0xE0 + n / 4096 ≤ 0xDF) := by omega
    have hC : 0xE0 ≤ 0xE0 + n / 4096 ∧ 0xE0 + n / 4096 ≤ 0xEF := by
      constructor <;> omega
    simp only [utf8Step, utf8Lead, cleanU8, if_true]
    rw [if_neg hA, if_neg hB, if_pos hC]
    have e : 0xE0 + n / 4096 - 0xE0 = n / 4096 := by omega
    rw [e]
  have s2 : utf8Step ⟨n / 4096, 2, if 0xE0 + n / 4096 = 0xE0 then 0xA0 else 0x80,
        if 0xE0 + n / 4096 = 0xED then 0x9F else 0xBF⟩ (0x80 + n / 64 % 64)
      = (⟨n / 4096 * 64 + n / 64 % 64, 1, 0x80, 0xBF⟩, []) := by
    have hC : (if 0xE0 + n / 4096 = 0xE0 then 0xA0 else 0x80) ≤ 0x80 + n / 64 % 64
        ∧ 0x80 + n / 64 % 64 ≤ (if 0xE0 + n / 4096 = 0xED then 0x9F else 0xBF) := by
      constructor
      · split_ifs with h
        · omega
        · omega
      · split_ifs with h
        · rcases hs with hs | hs <;> omega
        · omega
    simp only [utf8Step]
    rw [if_neg (by simp), if_pos hC, if_neg (by simp)]
    have e : n / 4096 * 64 + (0x80 + n / 64 % 64 - 0x80)
        = n / 4096 * 64 + n / 64 % 64 := by omega
    rw [e]
  have s3 : utf8Step ⟨n / 4096 * 64 + n / 64 % 64, 1, 0x80, 0xBF⟩ (0x80 + n % 64)
      = (cleanU8, [Char.ofNat n]) := by
    have hC : (0x80 : Nat) ≤ 0x80 + n % 64 ∧ 0x80 + n % 64 ≤ 0xBF := by
      constructor <;> omega
    simp only [utf8Step]
    rw [if_neg (by simp), if_pos hC]
    simp only [if_true]
    have e : (n / 4096 * 64 + n / 64 % 64) * 64 + (0x80 + n % 64 - 0x80) = n := by
      omega
    rw [e]
  simp only [utf8Feed, s1, s2, s3]
  simp

theorem utf8_decode_four {n : Nat} (h1 : 0x10000 ≤ n) (h2 : n ≤ 0x10FFFF) :
    utf8Feed cleanU8
        [0xF0 + n / 262144, 0x80 + n / 4096 % 64, 0x80 + n / 64 % 64, 0x80 + n % 64]
      = (cleanU8, [Char.ofNat n]) := by
  have s1 : utf8Step cleanU8 (0xF0 + n / 262144)
      = (⟨n / 262144, 3, if 0xF0 + n / 262144 = 0xF0 then 0x90 else 0x80,
          if 0xF0 + n / 262144 = 0xF4 then 0x8F else 0xBF⟩, []) := by
    have hA : ¬ (0xF0 + n / 262144 ≤ 0x7F) := by omega
    have hB : ¬ (0xC2 ≤ 0xF0 + n / 262144 ∧ 0xF0 + n / 262144 ≤ 0xDF) := by omega
    have hC : ¬ (0xE0 ≤ 0xF0 + n / 262144 ∧ 0xF0 + n / 262144 ≤ 0xEF) := by omega
    have hD : 0xF0 ≤ 0xF0 + n / 262144 ∧ 0xF0 + n / 262144 ≤ 0xF4 := by
      constructor <;> omega
    simp only [utf8Step, utf8Lead, cleanU8, if_true]
    rw [if_neg hA, if_neg hB, if_neg hC, if_pos hD]
    have e : 0xF0 + n / 262144 - 0xF0 = n / 262144 := by omega
    rw [e]
  have s2 : utf8Step ⟨n / 262144, 3, if 0xF0 + n / 262144 = 0xF0 then 0x90 else 0x80,
        if 0xF0 + n / 262144 = 0xF4 then 0x8F else 0xBF⟩ (0x80 + n / 4096 % 64)
      = (⟨n / 262144 * 64 + n / 4096 % 64, 2, 0x80, 0xBF⟩, []) := by
    have hC : (if 0xF0 + n / 262144 = 0xF0 then 0x90 else 0x80) ≤ 0x80 + n / 4096 % 64
        ∧ 0x80 + n / 4096 % 64 ≤ (if 0xF0 + n / 262144 = 0xF4 then 0x8F else 0xBF) := by
      constructor
      · split_ifs with h
        · omega
        · omega
      · split_ifs with h
        · omega
        · omega
    simp only [utf8Step]
    rw [if_neg (by simp), if_pos hC, if_neg (by simp)]
    have e : n / 262144 * 64 + (0x80 + n / 4096 % 64 - 0x80)
        = n / 262144 * 64 + n / 4096 % 64 := by omega
    rw [e]
  have s3 : utf8Step ⟨n / 262144 * 64 + n / 4096 % 64, 2, 0x80, 0xBF⟩
        (0x80 + n / 64 % 64)
      = (⟨(n / 262144 * 64 + n / 4096 % 64) * 64 + n / 64 % 64, 1, 0x80, 0xBF⟩, []) := by
    have hC : (0x80 : Nat) ≤ 0x80 + n / 64 % 64 ∧ 0x80 + n / 64 % 64 ≤ 0xBF := by
      constructor <;> omega
    simp only [utf8Step]
    rw [if_neg (by simp), if_pos hC, if_neg (by simp)]
    have e : (n / 262144 * 64 + n / 4096 % 64) * 64 + (0x80 + n / 64 % 64 - 0x80)
        = (n / 262144 * 64 + n / 4096 % 64) * 64 + n / 64 % 64 := by omega
    rw [e]
  have s4 : utf8Step ⟨(n / 262144 * 64 + n / 4096 % 64) * 64 + n / 64 % 64, 1,
        0x80, 0xBF⟩ (0x80 + n % 64)
      = (cleanU8, [Char.ofNat n]) := by
    have hC : (0x80 : Nat) ≤ 0x80 + n % 64 ∧ 0x80 + n % 64 ≤ 0xBF := by
      constructor <;> omega
    simp only [utf8Step]
    rw [if_neg (by simp), if_pos hC]
    simp only [if_true]
    have e : ((n / 262144 * 64 + n / 4096 % 64) * 64 + n / 64 % 64) * 64
        + (0x80 + n % 64 - 0x80) = n := by omega
    rw [e]
  simp only [utf8Feed, s1, s2, s3, s4]
  simp

theorem char_toNat_valid (c : Char) :
    c.toNat < 0xD800 ∨ (0xDFFF < c.toNat ∧ c.toNat < 0x110000) := by
  have h := c.valid
  unfold UInt32.isValidChar at h
  rcases h with h | ⟨h1, h2⟩
  · exact Or.inl h
  · exact Or.inr ⟨h1, h2⟩

theorem utf8Feed_encodeChar (c : Char) :
    utf8Feed cleanU8 (encodeChar c) = (cleanU8, [c]) := by
  have hval := char_toNat_valid c
  by_cases hc1 : c.toNat ≤ 0x7F
  · simp only [encodeChar, if_pos hc1]
    simp only [utf8Feed, utf8Step_clean_ascii hc1]
    simp [Char.ofNat_toNat]
  · by_cases hc2 : c.toNat ≤ 0x7FF
    · simp only [encodeChar, if_neg hc1, if_pos hc2]
      rw [utf8_decode_two (by omega) hc2, Char.ofNat_toNat]
    · by_cases hc3 : c.toNat ≤ 0xFFFF
      · simp only [encodeChar, if_neg hc1, if_neg hc2, if_pos hc3]
        rw [utf8_decode_three (by omega) hc3
          (by rcases hval with h | ⟨ha, hb⟩; exacts [Or.inl h, Or.inr ha]),
          Char.ofNat_toNat]
      · have hle : c.toNat ≤ 0x10FFFF := by
          rcases hval with h | ⟨ha, hb⟩ <;> omega
        simp only [encodeChar, if_neg hc1, if_neg hc2, if_neg hc3]
        rw [utf8_decode_four (by omega) hle, Char.ofNat_toNat]

theorem utf8Feed_encode (s : List Char) :
    utf8Feed cleanU8 (utf8Encode s) = (cleanU8, s) := by
  induction s with
  | nil => simp [utf8Encode, utf8Feed]
  | cons c rest ih =>
    have hcons : utf8Encode (c :: rest) = encodeChar c ++ utf8Encode rest := by
      simp [utf8Encode]
    rw [hcons, utf8Feed_append, utf8Feed_encodeChar c]
    simp [ih]

/-! ### Byte pipeline = text pipeline -/

theorem feedAll_events (cs : List (List Nat)) (st : DecoderState) :
    (feedAll st cs).1 = (feedMany st.buffer (textsOf st.u8 cs)).1 := by
  induction cs generalizing st with
  | nil => rfl
  | cons c rest ih =>
    simp only [feedAll, textsOf, feedMany]
    rw [ih ⟨(utf8Feed st.u8 c).1, (feedText st.buffer (utf8Feed st.u8 c).2).2⟩]

theorem textsOf_flatten (cs : List (List Nat)) (st : Utf8State) :
    (textsOf st cs).flatten = (utf8Feed st cs.flatten).2 := by
  induction cs generalizing st with
  | nil => simp [textsOf, utf8Feed]
  | cons c rest ih =>
    simp only [textsOf, List.flatten_cons, List.flatten]
    rw [ih (utf8Feed st c).1]
    rw [utf8Feed_append st c rest.flatten]

theorem firstMatch_delim_nil : firstMatch delim ([] : List Char) = none := by
  simp only [firstMatch]
  rw [if_neg (by simp [delim])]

/-- The whole stream path of `startAgent` on a byte-chunked valid UTF-8
encoding of a text `T` whose sentinel frame (if any) is its last complete
frame: the events are exactly those of the complete frames of `T`. -/
theorem feedAll_spec {T : List Char} {chunks : List (List Nat)}
    (henc : chunks.flatten = utf8Encode T)
    (hwf : ∀ f ∈ (framesOf T).dropLast, frameIsDone f = false) :
    (feedAll initDecoder chunks).1 = processFrames (framesOf T) := by
  rw [feedAll_events chunks initDecoder]
  simp only [initDecoder]
  have hflat : (textsOf cleanU8 chunks).flatten = T := by
    rw [textsOf_flatten, henc, utf8Feed_encode]
  have h2 : ∀ f ∈ (framesOf ([] ++ (textsOf cleanU8 chunks).flatten)).dropLast,
      frameIsDone f = false := by
    rw [List.nil_append, hflat]; exact hwf
  rw [feedMany_flatten (textsOf cleanU8 chunks) [] firstMatch_delim_nil h2]
  simp only []
  rw [List.nil_append, hflat]

/-- Inside one feed, the sentinel cuts off everything after it: the
frames after the `done` frame contribute no events. -/
theorem processFrames_done_cut (fs1 : List (List Char)) {f : List Char}
    (fs2 : List (List Char)) (h : frameStep f = FrameStep.done) :
    processFrames (fs1 ++ f :: fs2) = processFrames (fs1 ++ [f]) := by
  induction fs1 with
  | nil => simp only [List.nil_append, processFrames, h]
  | cons g rest ih =>
    simp only [List.cons_append]
    cases hg : frameStep g with
    | done => simp only [processFrames, hg]
    | parsed j => simp only [processFrames, hg]; rw [ih]
    | noLine => simp only [processFrames, hg]; exact ih
    | badJson => simp only [processFrames, hg]; exact ih

/-- A frame whose payload fails `JSON.parse` contributes nothing and
leaves the rest of the frames unaffected. -/
theorem processFrames_drop_bad (fs1 : List (List Char)) {f : List Char}
    (fs2 : List (List Char)) (h : frameStep f = FrameStep.badJson) :
    processFrames (fs1 ++ f :: fs2) = processFrames (fs1 ++ fs2) := by
  induction fs1 with
  | nil => simp only [List.nil_append, processFrames, h]
  | cons g rest ih =>
    simp only [List.cons_append]
    cases hg : frameStep g with
    | done => simp only [processFrames, hg]
    | parsed j => simp only [processFrames, hg]; rw [ih]
    | noLine => simp only [processFrames, hg]; exact ih
    | badJson => simp only [processFrames, hg]; exact ih

/-! ### The claims -/

/-- C1 (counterexample): the sentinel does not cut off frames arriving in
a later chunk.  Feeding `data: [DONE]` as one chunk and a status frame as
the next appends the status event after the `done` event: the `break`
leaves only the inner `for` loop, the `while` read loop keeps going. -/
theorem claimC1_counterexample :
    (startAgent (StartResult.ok
        [utf8Encode "data: [DONE]\n\n".data,
         utf8Encode "data: \x7b\"type\":\"status\",\"value\":\"hi\"\x7d\n\n".data]
        ReadEnd.eof)).1
      = [doneEvent, Json.obj [("type", Json.str "status"), ("value", Json.str "hi")]]
    ∧ ((startAgent (StartResult.ok
        [utf8Encode "data: [DONE]\n\n".data,
         utf8Encode "data: \x7b\"type\":\"status\",\"value\":\"hi\"\x7d\n\n".data]
        ReadEnd.eof)).1)[0]? = some doneEvent
    ∧ 1 < ((startAgent (StartResult.ok
        [utf8Encode "data: [DONE]\n\n".data,
         utf8Encode "data: \x7b\"type\":\"status\",\"value\":\"hi\"\x7d\n\n".data]
        ReadEnd.eof)).1).length :=
  ⟨rfl, rfl, by decide⟩

/-- C1 (amended): within a single feed call the sentinel does cut off
everything: once the `done` frame is reached, the remaining pending
frames of that same chunk contribute no events.  (Across feed calls the
cutoff does not hold — see the counterexample.) -/
theorem claimC1_done_cutoff (buffer s : List Char) (fs1 : List (List Char))
    (f : List Char) (fs2 : List (List Char))
    (hdone : frameStep f = FrameStep.done)
    (hframes : framesOf (buffer ++ s) = fs1 ++ f :: fs2) :
    (feedText buffer s).1 = processFrames (fs1 ++ [f]) := by
  show processFrames (framesOf (buffer ++ s)) = _
  rw [hframes]
  exact processFrames_done_cut fs1 fs2 hdone

/-- C1 (witness): one feed whose text closes a sentinel frame followed by
a status frame produces only the events up to `done`. -/
theorem claimC1_done_cutoff_witness :
    frameStep "data: [DONE]".data = FrameStep.done
    ∧ framesOf ([] ++ "data: [DONE]\n\ndata: \x7b\"type\":\"status\",\"value\":\"x\"\x7d\n\n".data)
        = [] ++ "data: [DONE]".data :: ["data: \x7b\"type\":\"status\",\"value\":\"x\"\x7d".data]
    ∧ (feedText [] "data: [DONE]\n\ndata: \x7b\"type\":\"status\",\"value\":\"x\"\x7d\n\n".data).1
        = processFrames ([] ++ ["data: [DONE]".data]) :=
  ⟨rfl, rfl, claimC1_done_cutoff [] _ [] _ _ rfl rfl⟩

/-- C2: split-invariance of the decoder.  For a well-formed stream — the
bytes are the UTF-8 encoding of a text `T`, and the sentinel frame, if
present, is the last complete frame of `T` — every chunking of the bytes
produces the same event sequence as feeding them in one chunk. -/
theorem claimC2_split_invariance (T : List Char) (chunks : List (List Nat))
    (henc : chunks.flatten = utf8Encode T)
    (hwf : ∀ f ∈ (framesOf T).dropLast, frameIsDone f = false) :
    (feedAll initDecoder chunks).1 = (feedAll initDecoder [utf8Encode T]).1 := by
  rw [feedAll_spec henc hwf, feedAll_spec (by simp) hwf]

/-- C2 (witness): a two-frame stream split in the middle of the two-byte
character `é` (byte 34 of the encoding falls between `0xC3` and `0xA9`)
decodes to the same events as the unsplit stream. -/
theorem claimC2_split_invariance_witness :
    ([(utf8Encode "data: \x7b\"type\":\"status\",\"value\":\"héllo\"\x7d\n\ndata: [DONE]\n\n".data).take 34,
      (utf8Encode "data: \x7b\"type\":\"status\",\"value\":\"héllo\"\x7d\n\ndata: [DONE]\n\n".data).drop 34] : List (List Nat)).flatten
      = utf8Encode "data: \x7b\"type\":\"status\",\"value\":\"héllo\"\x7d\n\ndata: [DONE]\n\n".data
    ∧ (∀ f ∈ (framesOf "data: \x7b\"type\":\"status\",\"value\":\"héllo\"\x7d\n\ndata: [DONE]\n\n".data).dropLast,
        frameIsDone f = false)
    ∧ (feedAll initDecoder
        [(utf8Encode "data: \x7b\"type\":\"status\",\"value\":\"héllo\"\x7d\n\ndata: [DONE]\n\n".data).take 34,
         (utf8Encode "data: \x7b\"type\":\"status\",\"value\":\"héllo\"\x7d\n\ndata: [DONE]\n\n".data).drop 34]).1
      = (feedAll initDecoder
          [utf8Encode "data: \x7b\"type\":\"status\",\"value\":\"héllo\"\x7d\n\ndata: [DONE]\n\n".data]).1 :=
  ⟨by simp, by decide, claimC2_split_invariance _ _ (by simp) (by decide)⟩

/-- C3 (counterexample): cancelling after one processed frame does not
leave exactly that frame's event in the log — the `catch` block appends
one further `error` event (the two lengths differ). -/
theorem claimC3_counterexample :
    (startAgent (StartResult.ok
        [utf8Encode "data: \x7b\"type\":\"status\",\"value\":\"hi\"\x7d\n\n".data]
        (ReadEnd.abort "The user aborted a request"))).1
      = processFrames (framesOf "data: \x7b\"type\":\"status\",\"value\":\"hi\"\x7d\n\n".data)
        ++ [errorEvent "The user aborted a request"]
    ∧ ((startAgent (StartResult.ok
        [utf8Encode "data: \x7b\"type\":\"status\",\"value\":\"hi\"\x7d\n\n".data]
        (ReadEnd.abort "The user aborted a request"))).1).length
      ≠ (processFrames (framesOf "data: \x7b\"type\":\"status\",\"value\":\"hi\"\x7d\n\n".data)).length
    ∧ (startAgent (StartResult.ok
        [utf8Encode "data: \x7b\"type\":\"status\",\"value\":\"hi\"\x7d\n\n".data]
        (ReadEnd.abort "The user aborted a request"))).2 = SessionEnd.cancelled :=
  ⟨rfl, by decide, rfl⟩

/-- C3 (amended): cancelling after the frames of `T` have been processed
leaves the events of exactly those frames, followed by one `error` event
describing the abort, and the session ends cancelled. -/
theorem claimC3_cancel_truncation (T : List Char) (chunks : List (List Nat))
    (msg : String)
    (henc : chunks.flatten = utf8Encode T)
    (hwf : ∀ f ∈ (framesOf T).dropLast, frameIsDone f = false) :
    startAgent (StartResult.ok chunks (ReadEnd.abort msg))
      = (processFrames (framesOf T) ++ [errorEvent msg], SessionEnd.cancelled) := by
  simp only [startAgent]
  rw [feedAll_spec henc hwf]

/-- C3 (witness): a concrete one-frame session aborted after the frame. -/
theorem claimC3_cancel_truncation_witness :
    ([utf8Encode "data: \x7b\"type\":\"status\",\"value\":\"hi\"\x7d\n\n".data] : List (List Nat)).flatten
      = utf8Encode "data: \x7b\"type\":\"status\",\"value\":\"hi\"\x7d\n\n".data
    ∧ (∀ f ∈ (framesOf "data: \x7b\"type\":\"status\",\"value\":\"hi\"\x7d\n\n".data).dropLast,
        frameIsDone f = false)
    ∧ startAgent (StartResult.ok
        [utf8Encode "data: \x7b\"type\":\"status\",\"value\":\"hi\"\x7d\n\n".data]
        (ReadEnd.abort "The user aborted a request"))
      = (processFrames (framesOf "data: \x7b\"type\":\"status\",\"value\":\"hi\"\x7d\n\n".data)
          ++ [errorEvent "The user aborted a request"], SessionEnd.cancelled) :=
  ⟨by simp, by decide, claimC3_cancel_truncation _ _ _ (by simp) (by decide)⟩

/-- C4: any failure of the query request/response cycle — a rejected
fetch, or a body that is not JSON (so `res.json()` rejects) — leaves the
caller with the empty result sequence written at the start; the error
goes only to `console.error`. -/
theorem claimC4_query_failure_empty :
    (∀ msg, runQuery (FetchOutcome.networkError msg) = Json.arr [])
    ∧ ∀ text, jsonParse text.data = none →
        runQuery (FetchOutcome.response text) = Json.arr [] := by
  constructor
  · intro msg; rfl
  · intro text h
    simp [runQuery, h]

/-- C4 (witness): a network failure and a non-JSON body both yield the
empty result sequence. -/
theorem claimC4_query_failure_empty_witness :
    jsonParse "oops".data = none
    ∧ runQuery (FetchOutcome.networkError "connection refused") = Json.arr []
    ∧ runQuery (FetchOutcome.response "oops") = Json.arr [] :=
  ⟨rfl, claimC4_query_failure_empty.1 "connection refused",
   claimC4_query_failure_empty.2 "oops" rfl⟩

/-- C5 (counterexample): enqueue order across calls is NOT submission
order: `setUploads(prev => [...items, ...prev])` puts the new batch in
front, so after enqueuing file 0 and then file 1 the list is
`[1, 0]`, not `[0, 1]`. -/
theorem claimC5_counterexample :
    enqueue [1] (enqueue [0] [])
      = [⟨1, UploadStatus.queued⟩, ⟨0, UploadStatus.queued⟩]
    ∧ enqueue [1] (enqueue [0] [])
      ≠ [⟨0, UploadStatus.queued⟩, ⟨1, UploadStatus.queued⟩] := by
  constructor
  · rfl
  · decide

/-- C5 (amended): each enqueue call creates one `queued` item per file,
preserving order within the submitted batch, and prepends the whole
batch to the existing list, so batches appear newest first. -/
theorem claimC5_enqueue_order (files1 files2 : List Nat) :
    enqueue files2 (enqueue files1 []) = mkItems files2 ++ mkItems files1
    ∧ (mkItems files1).map (fun u => u.file) = files1
    ∧ (mkItems files2).map (fun u => u.file) = files2
    ∧ ∀ u ∈ enqueue files2 (enqueue files1 []), u.status = UploadStatus.queued := by
  have hmap : ∀ fs : List Nat, (mkItems fs).map (fun u => u.file) = fs := by
    intro fs
    induction fs with
    | nil => rfl
    | cons x t ih =>
      simp only [mkItems, List.map_cons] at ih ⊢
      rw [ih]
  refine ⟨by simp [enqueue], hmap files1, hmap files2, ?_⟩
  intro u hu
  simp [enqueue, mkItems] at hu
  rcases hu with ⟨fvar, _, rfl⟩ | ⟨fvar, _, rfl⟩ <;> rfl

/-- C5 (witness): two single-file enqueues. -/
theorem claimC5_enqueue_order_witness :
    enqueue [7] (enqueue [5] []) = mkItems [7] ++ mkItems [5]
    ∧ (⟨7, UploadStatus.queued⟩ : UploadItem).status = UploadStatus.queued :=
  ⟨(claimC5_enqueue_order [5] [7]).1,
   (claimC5_enqueue_order [5] [7]).2.2.2 ⟨7, UploadStatus.queued⟩ (by decide)⟩

/-- C6: for a batch `[a, b, c]` of distinct files, requests are issued
strictly sequentially in submission order, each item steps
queued → uploading → done/error according to its own outcome alone (one
request per item, no retries), and a failure of one item leaves the
processing and terminal statuses of the others untouched — the whole
state trace is given explicitly. -/
theorem claimC6_upload_sequential (a b c : Nat) (outcome : Nat → UploadResult)
    (hab : a ≠ b) (hac : a ≠ c) (hbc : b ≠ c) :
    handleFiles outcome [a, b, c] []
      = ([a, b, c],
         [[⟨a, UploadStatus.queued⟩, ⟨b, UploadStatus.queued⟩, ⟨c, UploadStatus.queued⟩],
          [⟨a, UploadStatus.uploading⟩, ⟨b, UploadStatus.queued⟩, ⟨c, UploadStatus.queued⟩],
          [⟨a, uploadTerminal (outcome a)⟩, ⟨b, UploadStatus.queued⟩, ⟨c, UploadStatus.queued⟩],
          [⟨a, uploadTerminal (outcome a)⟩, ⟨b, UploadStatus.uploading⟩, ⟨c, UploadStatus.queued⟩],
          [⟨a, uploadTerminal (outcome a)⟩, ⟨b, uploadTerminal (outcome b)⟩, ⟨c, UploadStatus.queued⟩],
          [⟨a, uploadTerminal (outcome a)⟩, ⟨b, uploadTerminal (outcome b)⟩, ⟨c, UploadStatus.uploading⟩],
          [⟨a, uploadTerminal (outcome a)⟩, ⟨b, uploadTerminal (outcome b)⟩, ⟨c, uploadTerminal (outcome c)⟩]]) := by
  have hba := hab.symm
  have hca := hac.symm
  have hcb := hbc.symm
  simp [handleFiles, enqueue, mkItems, runBatch, setStatus, hab, hac, hbc, hba, hca, hcb]

/-- C6 (witness): files 0, 1, 2 where the request for 1 fails: 0 and 2
still reach `done`, 1 ends in `error`, requests go out in order. -/
theorem claimC6_upload_sequential_witness :
    (0 : Nat) ≠ 1 ∧ (0 : Nat) ≠ 2 ∧ (1 : Nat) ≠ 2
    ∧ handleFiles (fun n => if n = 1 then UploadResult.transportFail else UploadResult.ok)
        [0, 1, 2] []
      = ([0, 1, 2],
         [[⟨0, UploadStatus.queued⟩, ⟨1, UploadStatus.queued⟩, ⟨2, UploadStatus.queued⟩],
          [⟨0, UploadStatus.uploading⟩, ⟨1, UploadStatus.queued⟩, ⟨2, UploadStatus.queued⟩],
          [⟨0, UploadStatus.done⟩, ⟨1, UploadStatus.queued⟩, ⟨2, UploadStatus.queued⟩],
          [⟨0, UploadStatus.done⟩, ⟨1, UploadStatus.uploading⟩, ⟨2, UploadStatus.queued⟩],
          [⟨0, UploadStatus.done⟩, ⟨1, UploadStatus.error⟩, ⟨2, UploadStatus.queued⟩],
          [⟨0, UploadStatus.done⟩, ⟨1, UploadStatus.error⟩, ⟨2, UploadStatus.uploading⟩],
          [⟨0, UploadStatus.done⟩, ⟨1, UploadStatus.error⟩, ⟨2, UploadStatus.done⟩]]) :=
  ⟨by decide, by decide, by decide,
   claimC6_upload_sequential 0 1 2 _ (by decide) (by decide) (by decide)⟩

/-- C7: a response that is not usable as a stream (`!res.ok || !res.body`
makes `startAgent` throw before any read) appends exactly one `error`
event and the session ends errored; no body data is decoded. -/
theorem claimC7_bad_response_single_error :
    startAgent StartResult.badResponse
      = ([errorEvent "Failed to start stream"], SessionEnd.errored) := rfl

/-- C8: a frame whose `data:` payload is not the sentinel and fails
`JSON.parse` yields zero events, and the surrounding frames decode
exactly as if the malformed frame were absent. -/
theorem claimC8_decode_isolation (fs1 fs2 : List (List Char)) (f line : List Char)
    (hline : findDataLine f = some line)
    (hsent : linePayload line ≠ sentinel)
    (hparse : jsonParse (linePayload line) = none) :
    processFrames (fs1 ++ f :: fs2) = processFrames (fs1 ++ fs2) := by
  have hstep : frameStep f = FrameStep.badJson := by
    simp only [frameStep, hline]
    rw [if_neg hsent]
    simp [hparse]
  exact processFrames_drop_bad fs1 fs2 hstep

/-- C8 (witness): a malformed frame between two good ones changes
nothing. -/
theorem claimC8_decode_isolation_witness :
    findDataLine "data: \x7boops".data = some "data: \x7boops".data
    ∧ linePayload "data: \x7boops".data ≠ sentinel
    ∧ jsonParse (linePayload "data: \x7boops".data) = none
    ∧ processFrames (["data: \x7b\"type\":\"status\",\"value\":\"a\"\x7d".data]
        ++ "data: \x7boops".data :: ["data: \x7b\"type\":\"final\",\"answer\":\"b\"\x7d".data])
      = processFrames (["data: \x7b\"type\":\"status\",\"value\":\"a\"\x7d".data]
        ++ ["data: \x7b\"type\":\"final\",\"answer\":\"b\"\x7d".data]) :=
  ⟨rfl, by decide, rfl,
   claimC8_decode_isolation _ _ _ _ rfl (by decide) rfl⟩

/-- C9: the concrete two-feed scenario from the specification: a status
frame then the sentinel produce exactly the status event and `done`. -/
theorem claimC9_concrete_scenario :
    feedMany [] ["data: \x7b\"type\":\"status\",\"value\":\"hi\"\x7d\n\n".data,
                 "data: [DONE]\n\n".data]
      = ([Json.obj [("type", Json.str "status"), ("value", Json.str "hi")], doneEvent],
         []) := rfl

/-- C10: status updates match by identity of the file object: position
`i` is updated exactly when its file equals the processed one and left
untouched otherwise, so all duplicates of one file object move together
and an entry with a different file object never changes. -/
theorem claimC10_identity_update (st : List UploadItem) (f : Nat) (s : UploadStatus) :
    (setStatus st f s).length = st.length
    ∧ (∀ i : Nat, (setStatus st f s)[i]?
        = (st[i]?).map (fun u => if u.file = f then { u with status := s } else u))
    ∧ (∀ u ∈ setStatus st f s, u.file = f → u.status = s)
    ∧ (∀ u ∈ st, u.file ≠ f → u ∈ setStatus st f s) := by
  refine ⟨List.length_map _ _, fun i => List.getElem?_map _ _ _, ?_, ?_⟩
  · intro u hu huf
    rcases List.mem_map.mp hu with ⟨v, hv, hvu⟩
    by_cases h : v.file = f
    · rw [← hvu]
      simp [h]
    · exfalso
      rw [← hvu] at huf
      simp [h] at huf
  · intro u hu hne
    exact List.mem_map.mpr ⟨u, hu, by simp [hne]⟩

/-- C10 (witness): with file 7 enqueued twice, one `done` transition for
7 updates both entries and leaves file 8 untouched. -/
theorem claimC10_identity_update_witness :
    (setStatus [⟨7, UploadStatus.queued⟩, ⟨8, UploadStatus.queued⟩,
        ⟨7, UploadStatus.uploading⟩] 7 UploadStatus.done).length = 3
    ∧ (setStatus [⟨7, UploadStatus.queued⟩, ⟨8, UploadStatus.queued⟩,
        ⟨7, UploadStatus.uploading⟩] 7 UploadStatus.done)[2]?
      = some ⟨7, UploadStatus.done⟩
    ∧ (⟨8, UploadStatus.queued⟩ : UploadItem)
      ∈ setStatus [⟨7, UploadStatus.queued⟩, ⟨8, UploadStatus.queued⟩,
          ⟨7, UploadStatus.uploading⟩] 7 UploadStatus.done
    ∧ (⟨7, UploadStatus.done⟩ : UploadItem).status = UploadStatus.done := by
  refine ⟨(claimC10_identity_update _ 7 UploadStatus.done).1, ?_, ?_, ?_⟩
  · rw [(claimC10_identity_update [⟨7, UploadStatus.queued⟩, ⟨8, UploadStatus.queued⟩,
      ⟨7, UploadStatus.uploading⟩] 7 UploadStatus.done).2.1 2]
    rfl
  · exact (claimC10_identity_update _ 7 UploadStatus.done).2.2.2
      ⟨8, UploadStatus.queued⟩ (by decide) (by decide)
  · exact (claimC10_identity_update [⟨7, UploadStatus.done⟩] 7 UploadStatus.done).2.2.1
      ⟨7, UploadStatus.done⟩ (by decide) rfl
